import Mathlib

/-!
Verification of the ClearURLs rules-customizer build script
(`script/builder.py`).

The core of the script is pure data manipulation: a value normalizer
(`normalize_to_list`), a per-record patch engine (`upsert_provider`), the
three-phase catalog patcher (`process_rules`) and the minification
projection (`minify_data`).  This file embeds those functions shallowly:

* Python/YAML values are the inductive `Val`; Python lists are encoded as
  `vnil`/`vcons` chains so that every definition is structurally
  recursive and kernel-computable.
* Python dicts are association lists (`lookupA`/`setA`/`eraseA`); `setA`
  updates the first matching key in place and otherwise appends, which is
  exactly the insertion-order behaviour of a Python dict.
* The script's logger is modelled as the ordered list of emitted events
  (`LogEvent`), with the exact message strings the script formats.
* Python string operations (`replace`, `split`, quote stripping,
  `startswith`, substring test, `str.__lt__`-based `sorted`) are spelled
  out over `List Char`; Python compares strings lexicographically by code
  point, which `strLe` implements.

Array fields of a provider are read back with `getArr`; per the catalog
schema (§3 of the design) array fields hold JSON arrays of strings, and
`getArr` interprets exactly those (a non-list value stored under an array
field is outside the data model; the Python script would raise a
`TypeError` when sorting such a field).
-/

/-- A Python/YAML value as it occurs in patch documents and provider
records.  Python lists are encoded as `vnil`/`vcons` chains; `vnull`
stands for `None` and for any other non-string, non-list, non-bool
value. -/
inductive Val where
  | vstr : String → Val
  | vnil : Val
  | vcons : Val → Val → Val
  | vbool : Bool → Val
  | vnull : Val
deriving DecidableEq

/-- Encode a Python list of strings as a `Val`. -/
def listToVal : List String → Val
  | [] => .vnil
  | s :: rest => .vcons (.vstr s) (listToVal rest)

/-- Read a Python list of strings back from a `Val`; non-list values and
non-string elements contribute nothing (they are outside the catalog
schema for array fields). -/
def strsOfVal : Val → List String
  | .vcons (.vstr s) rest => s :: strsOfVal rest
  | .vcons _ rest => strsOfVal rest
  | _ => []

/-- One line emitted through the script's `MergeLogger`: `info` for
`logger.log`, `warning` for `logger.warn`. -/
inductive LogEvent where
  | info : String → LogEvent
  | warning : String → LogEvent
deriving DecidableEq

/-! ### Association lists: the embedding of Python dicts -/

/-- Lookup `m[k]` in a Python dict modelled as an association list. -/
def lookupA {α : Type} : List (String × α) → String → Option α
  | [], _ => none
  | (k, v) :: rest, key => if k = key then some v else lookupA rest key

/-- Assignment `m[k] = v` on a Python dict: overwrite in place if the key exists,
otherwise append (preserving insertion order). -/
def setA {α : Type} : List (String × α) → String → α → List (String × α)
  | [], key, v => [(key, v)]
  | (k, w) :: rest, key, v =>
    if k = key then (k, v) :: rest else (k, w) :: setA rest key v

/-- Deletion `del m[k]` on a Python dict (keys are unique in a dict, so removing
the first occurrence is removal of the occurrence). -/
def eraseA {α : Type} : List (String × α) → String → List (String × α)
  | [], _ => []
  | (k, w) :: rest, key => if k = key then rest else (k, w) :: eraseA rest key

/-- The keys of an association list, in order. -/
def keysA {α : Type} (m : List (String × α)) : List String := m.map Prod.fst

/-! ### Python string primitives -/

/-- The whitespace characters recognised by Python's `str.split()`. -/
def pyIsSpace (c : Char) : Bool :=
  c = ' ' || c = '\t' || c = '\n' || c = '\r' || c = '\x0b' || c = '\x0c'

/-- Python's `value.replace(",", " ")` over the character list. -/
def commaToSpace (cs : List Char) : List Char :=
  cs.map (fun c => if c = ',' then ' ' else c)

/-- Worker for `pySplit`: `acc` holds the current token reversed. -/
def pySplitGo : List Char → List Char → List String
  | [], acc => if acc.isEmpty then [] else [String.mk acc.reverse]
  | c :: rest, acc =>
    if pyIsSpace c then
      if acc.isEmpty then pySplitGo rest []
      else String.mk acc.reverse :: pySplitGo rest []
    else pySplitGo rest (c :: acc)

/-- Python's `str.split()` with no argument: split on runs of whitespace,
discarding empty tokens. -/
def pySplit (cs : List Char) : List String := pySplitGo cs []

/-- Leftmost, non-overlapping replacement of the two-character sequence
`a b` by the single character `c`: Python's `str.replace` for a
two-character pattern and one-character replacement. -/
def replacePair (a b c : Char) : List Char → List Char
  | x :: y :: rest =>
    if x = a && y = b then c :: replacePair a b c rest
    else x :: replacePair a b c (y :: rest)
  | l => l

/-- Python's `item[1:-1]`. -/
def stripEnds (cs : List Char) : List Char := (cs.drop 1).dropLast

/-- Quote handling for one whitespace-separated token, exactly as in
`normalize_to_list`: single quotes strip raw, double quotes strip and
un-escape `\\\\` then `\\\"`, anything else is kept as-is. -/
def pyProcessToken (t : String) : String :=
  let cs := t.toList
  if (cs.head? == some '\x27') && (cs.getLast? == some '\x27') then
    String.mk (stripEnds cs)
  else if (cs.head? == some '"') && (cs.getLast? == some '"') then
    String.mk (replacePair '\\' '"' '"' (replacePair '\\' '\\' '\\' (stripEnds cs)))
  else t

/-- The string case of `normalize_to_list`: replace commas by spaces,
split on whitespace runs, then process the quotes of every token. -/
def normalizeStr (s : String) : List String :=
  (pySplit (commaToSpace s.toList)).map pyProcessToken

/-- The function `normalize_to_list` from `builder.py`: a string is comma/whitespace
split with quote handling, a list is normalized element-wise and
flattened, anything else normalizes to `[]`. -/
def normalize_to_list : Val → List String
  | .vstr s => normalizeStr s
  | .vnil => []
  | .vcons v rest => normalize_to_list v ++ normalize_to_list rest
  | .vbool _ => []
  | .vnull => []

/-! ### Python `sorted(list(set(...)))` over strings -/

/-- Lexicographic comparison of character lists by code point, the order
Python uses to compare `str` values. -/
def strLeChars : List Char → List Char → Bool
  | [], _ => true
  | _ :: _, [] => false
  | a :: as, b :: bs =>
    if a.toNat < b.toNat then true
    else if b.toNat < a.toNat then false
    else strLeChars as bs

/-- Python's `<=` on strings. -/
def strLe (a b : String) : Bool := strLeChars a.toList b.toList

/-- Insertion into a `strLe`-sorted list. -/
def insertLe (x : String) : List String → List String
  | [] => [x]
  | y :: ys => if strLe x y then x :: y :: ys else y :: insertLe x ys

/-- Insertion sort by `strLe`; on duplicate-free input this agrees with
Python's `sorted`. -/
def sortLe : List String → List String
  | [] => []
  | x :: xs => insertLe x (sortLe xs)

/-- Keep one copy of every element (the construction keeps the last
occurrence; the result is only ever sorted afterwards, so only the
underlying set matters, which is exactly Python's `set(...)`). -/
def dedupStr : List String → List String
  | [] => []
  | x :: xs =>
    let d := dedupStr xs
    if d.contains x then d else x :: d

/-- Python's `sorted(list(set(l)))` for a list of strings. -/
def sortedSet (l : List String) : List String := sortLe (dedupStr l)

/-! ### Small string helpers for the script's checks and messages -/

/-- Whether `needle` is a prefix of `hay` (character lists). -/
def isPrefixL : List Char → List Char → Bool
  | [], _ => true
  | _ :: _, [] => false
  | a :: as, b :: bs => a = b && isPrefixL as bs

/-- Whether `needle` occurs inside `hay` (character lists): Python's `in` on
strings. -/
def isInfixL (needle : List Char) : List Char → Bool
  | [] => isPrefixL needle []
  | c :: rest => isPrefixL needle (c :: rest) || isInfixL needle rest

/-- Python's `needle in hay` for strings. -/
def strContains (hay needle : String) : Bool := isInfixL needle.toList hay.toList

/-- Python's `s.startswith(pre)`. -/
def strStartsWith (s pre : String) : Bool := isPrefixL pre.toList s.toList

/-- Python's `s[n:]`. -/
def strDrop (s : String) (n : Nat) : String := String.mk (s.toList.drop n)

/-- Python's `f"{s:<w}"`: left-justify `s` in a field of width `w`. -/
def ljust (s : String) (w : Nat) : String :=
  String.mk (s.toList ++ List.replicate (w - s.toList.length) ' ')

/-- Python `repr` of a string without special characters, as it appears
when a list of strings is interpolated into an f-string. -/
def pyStrRepr (s : String) : String := "\x27" ++ s ++ "\x27"

/-- Python `str` of a list of strings, as interpolated into f-strings. -/
def pyListRepr (xs : List String) : String :=
  "[" ++ String.intercalate ", " (xs.map pyStrRepr) ++ "]"

/-! ### Constants from the configuration section of `builder.py` -/

/-- Sentinel marking "empty this entire array field". -/
def KEYWORD_DELETE_ALL : String := "DELETE_ENTIRE_ARRAY"

/-- A provider record: a Python dict from field name to value. -/
abbrev Provider := List (String × Val)

/-- The catalog: a Python dict from provider name to provider record. -/
abbrev Catalog := List (String × Provider)

/-- The template `DEFAULT_PROVIDER` from `builder.py`, in its literal key order. -/
def DEFAULT_PROVIDER : Provider :=
  [("urlPattern", .vstr ""),
   ("completeProvider", .vbool true),
   ("rules", .vnil),
   ("referralMarketing", .vnil),
   ("rawRules", .vnil),
   ("exceptions", .vnil),
   ("redirections", .vnil),
   ("forceRedirection", .vbool false)]

/-- The list `RULE_FIELDS` from `builder.py`. -/
def RULE_FIELDS : List String :=
  ["rules", "referralMarketing", "rawRules", "redirections"]

/-- The list `ARRAY_FIELDS` from `builder.py`. -/
def ARRAY_FIELDS : List String := RULE_FIELDS ++ ["exceptions"]

/-- Python's `target.get(field, [])` read as a list of strings (array fields hold
JSON string arrays per the catalog schema). -/
def getArr (p : Provider) (k : String) : List String :=
  match lookupA p k with
  | some v => strsOfVal v
  | none => []

/-! ### Log messages formatted by the script -/

/-- Message `f"    [WARN] Duplicate Add: '{name}' exists. Merging changes."` -/
def msgDupAdd (name : String) : String :=
  "    [WARN] Duplicate Add: \x27" ++ name ++ "\x27 exists. Merging changes."

/-- Message `f"    [WARN] Missing Modify: '{name}' missing. Creating new."` -/
def msgMissingMod (name : String) : String :=
  "    [WARN] Missing Modify: \x27" ++ name ++ "\x27 missing. Creating new."

/-- Message `f"    [{action_type:<6}] {name}"` -/
def msgClassify (actionType name : String) : String :=
  "    [" ++ ljust actionType 6 ++ "] " ++ name

/-- Message `f"        [WARN] '{name}': Cannot delete non-existent {field}: {items}"` -/
def msgDelNotFound (name field : String) (items : List String) : String :=
  "        [WARN] \x27" ++ name ++ "\x27: Cannot delete non-existent " ++
    field ++ ": " ++ pyListRepr items

/-- Message `f"        [Info] '{name}' ({field}): Skipped duplicates {items}"` -/
def msgDupSkip (name field : String) (items : List String) : String :=
  "        [Info] \x27" ++ name ++ "\x27 (" ++ field ++ "): Skipped duplicates " ++
    pyListRepr items

/-- Message `f"    [Delete] {name}"` -/
def msgDeleted (name : String) : String := "    [Delete] " ++ name

/-- Message `f"    [WARN] Delete failed: Provider '{name}' not found in upstream."` -/
def msgDelFailed (name : String) : String :=
  "    [WARN] Delete failed: Provider \x27" ++ name ++ "\x27 not found in upstream."

/-! ### The per-field step of `upsert_provider` (builder.py lines 277-344) -/

/-- One iteration of the field loop of `upsert_provider`: classify the
field key (`rst-` / `del-` / bare array field / bare scalar), then apply
reset, delete, append or scalar overwrite to the record, emitting the
script's diagnostics.  The state is the record under mutation paired with
the log emitted so far. -/
def applyField (name : String) (st : Provider × List LogEvent)
    (field : String) (value : Val) : Provider × List LogEvent :=
  let target := st.1
  let logs := st.2
  -- 判断是否为数组操作: compute (target_field_name, is_array, value_list)
  let dispatch : String × Bool × List String :=
    if strStartsWith field "rst-" then
      let tfn := strDrop field 4
      if ARRAY_FIELDS.contains tfn then (tfn, true, normalize_to_list value)
      else (tfn, false, [])
    else if strStartsWith field "del-" then
      let tfn := strDrop field 4
      if ARRAY_FIELDS.contains tfn then (tfn, true, normalize_to_list value)
      else (tfn, false, [])
    else if ARRAY_FIELDS.contains field then (field, true, normalize_to_list value)
    else (field, false, [])
  let targetFieldName := dispatch.1
  let isArray := dispatch.2.1
  let valueList := dispatch.2.2
  if strStartsWith field "rst-" then
    -- 模式 A: 覆盖
    if isArray then (setA target targetFieldName (listToVal (sortedSet valueList)), logs)
    else (setA target targetFieldName value, logs)
  else if strStartsWith field "del-" then
    -- 模式 B: 删除
    if isArray then
      let originalList := getArr target targetFieldName
      if valueList = [KEYWORD_DELETE_ALL] then (setA target targetFieldName .vnil, logs)
      else
        let notFound := valueList.filter (fun x => !originalList.contains x)
        let logs1 := if notFound.isEmpty then logs
          else logs ++ [LogEvent.warning (msgDelNotFound name targetFieldName notFound)]
        (setA target targetFieldName
          (listToVal (originalList.filter (fun x => !valueList.contains x))), logs1)
    else (target, logs)
  else if isArray then
    -- 模式 C: 追加
    let originalList := getArr target field
    let dups := valueList.filter (fun x => originalList.contains x)
    let logs1 := if dups.isEmpty then logs
      else logs ++ [LogEvent.info (msgDupSkip name field dups)]
    (setA target field (listToVal (sortedSet (originalList ++ valueList))), logs1)
  else
    -- 模式 D: 标量覆盖
    (setA target field value, logs)

/-- Step 3 of `upsert_provider`: when the patch did not supply the key
`completeProvider`, recompute it as the negation of "some rule field is
non-empty" (builder.py lines 346-350). -/
def recomputeComplete (patchData : List (String × Val)) (target : Provider) : Provider :=
  if (keysA patchData).contains "completeProvider" then target
  else
    let hasRules := RULE_FIELDS.any (fun f => 0 < (getArr target f).length)
    setA target "completeProvider" (.vbool (!hasRules))

/-- The function `upsert_provider` from `builder.py`: returns the updated catalog and
the log events emitted during this call, in emission order.  A falsy
(empty) patch object returns immediately. -/
def upsert_provider (providers : Catalog) (name : String)
    (patchData : List (String × Val)) (sectionName : String) :
    Catalog × List LogEvent :=
  if patchData.isEmpty then (providers, [])
  else
    let exists0 := (lookupA providers name).isSome
    -- 1. 确定操作类型并记录日志
    let step1 : String × Catalog × List LogEvent :=
      if sectionName = "add-providers" then
        if exists0 then ("Merge (Add->Mod)", providers, [.warning (msgDupAdd name)])
        else ("Create", providers, [])
      else if sectionName = "modify-providers" then
        if !exists0 then
          ("Create (Mod->Add)", setA providers name DEFAULT_PROVIDER,
           [.warning (msgMissingMod name)])
        else ("Modify", providers, [])
      else ("", providers, [])
    let actionType := step1.1
    let providers1 := step1.2.1
    let logs1 := step1.2.2
    -- 确保 Provider 存在
    let providers2 :=
      if (lookupA providers1 name).isSome then providers1
      else setA providers1 name DEFAULT_PROVIDER
    -- 只有非 WARN 状态才记录常规操作日志
    let logs2 :=
      if strContains actionType "WARN" then []
      else [LogEvent.info (msgClassify actionType name)]
    let target0 := (lookupA providers2 name).getD DEFAULT_PROVIDER
    -- 2. 遍历字段应用修改
    let applied := patchData.foldl (fun st kv => applyField name st kv.1 kv.2) (target0, [])
    -- 3. 自动计算 completeProvider
    let target1 := recomputeComplete patchData applied.1
    (setA providers2 name target1, logs1 ++ logs2 ++ applied.2)

/-- The record `upsert_provider` binds to a name it (re-)creates from the
default template: the field loop applied to `DEFAULT_PROVIDER` followed
by the `completeProvider` recomputation. -/
def patchedDefault (name : String) (patchData : List (String × Val)) : Provider :=
  recomputeComplete patchData
    ((patchData.foldl (fun st kv => applyField name st kv.1 kv.2)
      (DEFAULT_PROVIDER, [])).1)

/-! ### The catalog patcher `process_rules` (builder.py lines 353-379) -/

/-- The patch document: the three top-level keys of `custom_rules.yaml`
consumed by `process_rules`.  `del-providers` is an arbitrary value fed
to `normalize_to_list`; the two provider sections are dicts mapping a
provider name to a patch object (a dict of field keys). -/
structure PatchDoc where
  delProviders : Val
  addProviders : List (String × List (String × Val))
  modifyProviders : List (String × List (String × Val))

/-- One iteration of the deletion loop of `process_rules`. -/
def deleteStep (st : Catalog × List LogEvent) (name : String) :
    Catalog × List LogEvent :=
  if (lookupA st.1 name).isSome then
    (eraseA st.1 name, st.2 ++ [LogEvent.info (msgDeleted name)])
  else
    (st.1, st.2 ++ [LogEvent.warning (msgDelFailed name)])

/-- One iteration of the add/modify loops of `process_rules`. -/
def upsertStep (sectionName : String) (st : Catalog × List LogEvent)
    (entry : String × List (String × Val)) : Catalog × List LogEvent :=
  let r := upsert_provider st.1 entry.1 entry.2 sectionName
  (r.1, st.2 ++ r.2)

/-- The function `process_rules` from `builder.py`: deletions, then additions, then
modifications, in that fixed order, returning the merged catalog and the
emitted log. -/
def process_rules (upstream : Catalog) (custom : PatchDoc) :
    Catalog × List LogEvent :=
  let logs0 := [LogEvent.info "[-] Processing rules..."]
  let delList := normalize_to_list custom.delProviders
  let st1 := delList.foldl deleteStep (upstream, logs0)
  let st2 := custom.addProviders.foldl (upsertStep "add-providers") st1
  custom.modifyProviders.foldl (upsertStep "modify-providers") st2

/-! ### The minification projection `minify_data` (builder.py lines 382-413) -/

/-- The array-field loop of `minify_data`: keep the key only when the
stored value is truthy with positive length (a non-empty list, or a
non-empty string; on the catalog schema array fields hold lists). -/
def minifyArrStep (p : Provider) (m : Provider) (key : String) : Provider :=
  match lookupA p key with
  | some (.vcons h t) => setA m key (.vcons h t)
  | some (.vstr s) => if s = "" then m else setA m key (.vstr s)
  | _ => m

/-- The scalar part of the per-record projection of `minify_data`: keep
`urlPattern` when present, keep `completeProvider`/`forceRedirection`
only when the stored value is exactly `True`. -/
def minifyScalars (p : Provider) : Provider :=
  let m : Provider := []
  let m := match lookupA p "urlPattern" with
    | some v => setA m "urlPattern" v
    | none => m
  let m := if lookupA p "completeProvider" = some (.vbool true) then
      setA m "completeProvider" (.vbool true) else m
  if lookupA p "forceRedirection" = some (.vbool true) then
    setA m "forceRedirection" (.vbool true) else m

/-- The per-record projection of `minify_data`: the scalar projection
followed by the array-field loop (keep only non-empty arrays). -/
def minifyProvider (p : Provider) : Provider :=
  ARRAY_FIELDS.foldl (minifyArrStep p) (minifyScalars p)

/-- The function `minify_data` from `builder.py`: a pure projection applied to every
record of the merged catalog. -/
def minify_data (providers : Catalog) : Catalog :=
  providers.map (fun nmp => (nmp.1, minifyProvider nmp.2))

/-! ### Lemmas about the association-list dict model -/

theorem lookupA_setA_self {α : Type} (m : List (String × α)) (k : String) (v : α) :
    lookupA (setA m k v) k = some v := by
  induction m with
  | nil => simp [setA, lookupA]
  | cons kv rest ih =>
    obtain ⟨k1, v1⟩ := kv
    by_cases h : k1 = k
    · simp [setA, lookupA, h]
    · simp [setA, lookupA, h, ih]

theorem lookupA_setA_ne {α : Type} (m : List (String × α)) {k k' : String} (v : α)
    (h : k' ≠ k) : lookupA (setA m k v) k' = lookupA m k' := by
  have hkk : ¬ k = k' := fun hh => h hh.symm
  induction m with
  | nil => simp [setA, lookupA, hkk]
  | cons kv rest ih =>
    obtain ⟨k1, v1⟩ := kv
    by_cases h1 : k1 = k
    · subst h1
      simp [setA, lookupA, hkk]
    · simp [setA, lookupA, h1, ih]

theorem lookupA_eraseA_ne {α : Type} (m : List (String × α)) {k k' : String}
    (h : k' ≠ k) : lookupA (eraseA m k) k' = lookupA m k' := by
  induction m with
  | nil => simp [eraseA]
  | cons kv rest ih =>
    obtain ⟨k1, v1⟩ := kv
    by_cases h1 : k1 = k
    · subst h1
      have hkk : ¬ k1 = k' := fun hh => h hh.symm
      simp [eraseA, lookupA, hkk]
    · simp [eraseA, lookupA, h1, ih]

theorem lookupA_none_of_not_mem_keys {α : Type} {m : List (String × α)} {k : String}
    (h : k ∉ keysA m) : lookupA m k = none := by
  induction m with
  | nil => simp [lookupA]
  | cons kv rest ih =>
    obtain ⟨k1, v1⟩ := kv
    simp only [keysA, List.map_cons, List.mem_cons] at h
    push_neg at h
    have h1 : ¬ k1 = k := fun hh => h.1 hh.symm
    simp only [lookupA, h1, if_false]
    exact ih h.2

theorem mem_keys_of_lookupA_some {α : Type} {m : List (String × α)} {k : String}
    {v : α} (h : lookupA m k = some v) : k ∈ keysA m := by
  by_contra hc
  rw [lookupA_none_of_not_mem_keys hc] at h
  exact Option.noConfusion h

theorem lookupA_eraseA_self {α : Type} (m : List (String × α)) (k : String)
    (h : (keysA m).Nodup) : lookupA (eraseA m k) k = none := by
  induction m with
  | nil => simp [eraseA, lookupA]
  | cons kv rest ih =>
    obtain ⟨k1, v1⟩ := kv
    simp only [keysA, List.map_cons, List.nodup_cons] at h
    by_cases h1 : k1 = k
    · subst h1
      rw [show eraseA ((k1, v1) :: rest) k1 = rest by simp [eraseA]]
      exact lookupA_none_of_not_mem_keys h.1
    · simp only [eraseA, h1, if_false, lookupA]
      exact ih h.2

theorem keysA_eraseA_sublist {α : Type} (m : List (String × α)) (k : String) :
    (keysA (eraseA m k)).Sublist (keysA m) := by
  induction m with
  | nil => simp [eraseA]
  | cons kv rest ih =>
    obtain ⟨k1, v1⟩ := kv
    by_cases h1 : k1 = k
    · simp only [eraseA, h1, if_true, if_pos rfl, keysA, List.map_cons]
      exact List.sublist_cons_self k (rest.map Prod.fst)
    · simpa [eraseA, h1, keysA] using ih

theorem keysA_nodup_eraseA {α : Type} {m : List (String × α)} (k : String)
    (h : (keysA m).Nodup) : (keysA (eraseA m k)).Nodup :=
  (keysA_eraseA_sublist m k).nodup h

/-! ### Lemmas about the Python string order and `sorted(list(set(...)))` -/

theorem containsStr_iff {l : List String} {a : String} :
    l.contains a = true ↔ a ∈ l := by
  simp [List.contains]

theorem strLeChars_cons_iff {a b : Char} {as bs : List Char} :
    strLeChars (a :: as) (b :: bs) = true ↔
      a.toNat < b.toNat ∨ (a.toNat = b.toNat ∧ strLeChars as bs = true) := by
  simp only [strLeChars]
  split_ifs with h1 h2
  · simp [h1]
  · simp [h2]
    omega
  · have he : a.toNat = b.toNat := by omega
    simp [he]

theorem strLeChars_total (as bs : List Char) :
    strLeChars as bs = true ∨ strLeChars bs as = true := by
  induction as generalizing bs with
  | nil => left; simp [strLeChars]
  | cons a as ih =>
    cases bs with
    | nil => right; simp [strLeChars]
    | cons b bs =>
      rcases Nat.lt_trichotomy a.toNat b.toNat with h | h | h
      · left; rw [strLeChars_cons_iff]; exact Or.inl h
      · rcases ih bs with hl | hr
        · left; rw [strLeChars_cons_iff]; exact Or.inr ⟨h, hl⟩
        · right; rw [strLeChars_cons_iff]; exact Or.inr ⟨h.symm, hr⟩
      · right; rw [strLeChars_cons_iff]; exact Or.inl h

theorem strLeChars_trans {as bs cs : List Char} (h1 : strLeChars as bs = true)
    (h2 : strLeChars bs cs = true) : strLeChars as cs = true := by
  induction as generalizing bs cs with
  | nil => simp [strLeChars]
  | cons a as ih =>
    cases bs with
    | nil => simp [strLeChars] at h1
    | cons b bs =>
      cases cs with
      | nil => simp [strLeChars] at h2
      | cons c cs =>
        rw [strLeChars_cons_iff] at h1 h2 ⊢
        rcases h1 with h1 | ⟨h1e, h1r⟩
        · rcases h2 with h2 | ⟨h2e, _⟩
          · exact Or.inl (h1.trans h2)
          · exact Or.inl (h2e ▸ h1)
        · rcases h2 with h2 | ⟨h2e, h2r⟩
          · exact Or.inl (h1e ▸ h2)
          · exact Or.inr ⟨h1e.trans h2e, ih h1r h2r⟩

theorem strLeChars_antisymm {as bs : List Char} (h1 : strLeChars as bs = true)
    (h2 : strLeChars bs as = true) : as = bs := by
  induction as generalizing bs with
  | nil =>
    cases bs with
    | nil => rfl
    | cons b bs => simp [strLeChars] at h2
  | cons a as ih =>
    cases bs with
    | nil => simp [strLeChars] at h1
    | cons b bs =>
      rw [strLeChars_cons_iff] at h1 h2
      rcases h1 with h1 | ⟨h1e, h1r⟩
      · rcases h2 with h2 | ⟨h2e, _⟩
        · omega
        · omega
      · rcases h2 with h2 | ⟨h2e, h2r⟩
        · omega
        · have hab : a = b := Char.eq_of_val_eq (UInt32.toNat.inj h1e)
          rw [hab, ih h1r h2r]

theorem strLe_total (a b : String) : strLe a b = true ∨ strLe b a = true :=
  strLeChars_total a.toList b.toList

theorem strLe_trans {a b c : String} (h1 : strLe a b = true)
    (h2 : strLe b c = true) : strLe a c = true :=
  strLeChars_trans h1 h2

theorem strLe_antisymm {a b : String} (h1 : strLe a b = true)
    (h2 : strLe b a = true) : a = b := by
  have hl := strLeChars_antisymm h1 h2
  cases a; cases b
  exact congrArg String.mk hl

/-- The sortedness predicate for the canonical storage order of array
fields: each element is `strLe`-below all later ones. -/
def SortedStr (l : List String) : Prop :=
  l.Pairwise (fun a b => strLe a b = true)

theorem insertLe_cons (x y : String) (ys : List String) :
    insertLe x (y :: ys) =
      if strLe x y then x :: y :: ys else y :: insertLe x ys := rfl

theorem dedupStr_cons (x : String) (xs : List String) :
    dedupStr (x :: xs) =
      if (dedupStr xs).contains x then dedupStr xs else x :: dedupStr xs := rfl

theorem mem_insertLe {x a : String} {l : List String} :
    a ∈ insertLe x l ↔ a = x ∨ a ∈ l := by
  induction l with
  | nil => simp [insertLe]
  | cons y ys ih =>
    by_cases h : strLe x y = true
    · rw [insertLe_cons, if_pos h]
      simp only [List.mem_cons]
    · rw [insertLe_cons, if_neg h]
      simp only [List.mem_cons, ih]
      tauto

theorem sortedStr_insertLe {x : String} {l : List String} (h : SortedStr l) :
    SortedStr (insertLe x l) := by
  induction l with
  | nil => simp [insertLe, SortedStr]
  | cons y ys ih =>
    rcases List.pairwise_cons.mp h with ⟨hy, hys⟩
    by_cases hxy : strLe x y = true
    · rw [insertLe_cons, if_pos hxy]
      refine List.pairwise_cons.mpr ⟨?_, h⟩
      intro b hb
      rcases List.mem_cons.mp hb with rfl | hb
      · exact hxy
      · exact strLe_trans hxy (hy b hb)
    · rw [insertLe_cons, if_neg hxy]
      refine List.pairwise_cons.mpr ⟨?_, ih hys⟩
      intro b hb
      rcases mem_insertLe.mp hb with rfl | hb
      · rcases strLe_total b y with hh | hh
        · exact absurd hh hxy
        · exact hh
      · exact hy b hb

theorem nodup_insertLe {x : String} {l : List String} (hx : x ∉ l)
    (h : l.Nodup) : (insertLe x l).Nodup := by
  induction l with
  | nil => simp [insertLe]
  | cons y ys ih =>
    rcases List.nodup_cons.mp h with ⟨hy, hys⟩
    have hxy : ¬ x = y := fun hh => hx (by simp [hh])
    have hxys : x ∉ ys := fun hh => hx (by simp [hh])
    by_cases hle : strLe x y = true
    · rw [insertLe_cons, if_pos hle]
      exact List.nodup_cons.mpr ⟨by simp [hxy, hxys], h⟩
    · rw [insertLe_cons, if_neg hle]
      refine List.nodup_cons.mpr ⟨?_, ih hxys hys⟩
      rw [mem_insertLe]
      push_neg
      exact ⟨fun hh => hxy hh.symm, hy⟩

theorem mem_sortLe {a : String} {l : List String} : a ∈ sortLe l ↔ a ∈ l := by
  induction l with
  | nil => simp [sortLe]
  | cons x xs ih => simp [sortLe, mem_insertLe, ih]

theorem sortedStr_sortLe (l : List String) : SortedStr (sortLe l) := by
  induction l with
  | nil => simp [sortLe, SortedStr]
  | cons x xs ih => exact sortedStr_insertLe ih

theorem nodup_sortLe {l : List String} (h : l.Nodup) : (sortLe l).Nodup := by
  induction l with
  | nil => simp [sortLe]
  | cons x xs ih =>
    rcases List.nodup_cons.mp h with ⟨hx, hxs⟩
    exact nodup_insertLe (fun hh => hx (mem_sortLe.mp hh)) (ih hxs)

theorem mem_dedupStr {l : List String} : ∀ a, a ∈ dedupStr l ↔ a ∈ l := by
  induction l with
  | nil => simp [dedupStr]
  | cons x xs ih =>
    intro a
    by_cases h : (dedupStr xs).contains x = true
    · have hx : x ∈ xs := (ih x).mp (containsStr_iff.mp h)
      rw [dedupStr_cons, if_pos h, List.mem_cons, ih a]
      constructor
      · exact Or.inr
      · rintro (rfl | hh)
        · exact hx
        · exact hh
    · rw [dedupStr_cons, if_neg h, List.mem_cons, List.mem_cons, ih a]

theorem nodup_dedupStr (l : List String) : (dedupStr l).Nodup := by
  induction l with
  | nil => simp [dedupStr]
  | cons x xs ih =>
    by_cases h : (dedupStr xs).contains x = true
    · rw [dedupStr_cons, if_pos h]
      exact ih
    · rw [dedupStr_cons, if_neg h]
      refine List.nodup_cons.mpr ⟨?_, ih⟩
      intro hm
      exact h (containsStr_iff.mpr hm)

theorem mem_sortedSet {a : String} {l : List String} :
    a ∈ sortedSet l ↔ a ∈ l := by
  rw [sortedSet, mem_sortLe, mem_dedupStr]

theorem sortedStr_sortedSet (l : List String) : SortedStr (sortedSet l) :=
  sortedStr_sortLe (dedupStr l)

theorem nodup_sortedSet (l : List String) : (sortedSet l).Nodup :=
  nodup_sortLe (nodup_dedupStr l)

/-- A `strLe`-sorted duplicate-free list of strings is determined by its
members: the canonical-order storage of a set is unique. -/
theorem sorted_nodup_eq_of_mem_iff :
    ∀ {l1 l2 : List String}, SortedStr l1 → SortedStr l2 → l1.Nodup →
      l2.Nodup → (∀ a, a ∈ l1 ↔ a ∈ l2) → l1 = l2 := by
  intro l1
  induction l1 with
  | nil =>
    intro l2 _ _ _ _ hm
    cases l2 with
    | nil => rfl
    | cons y ys => exact absurd ((hm y).mpr (by simp)) (by simp)
  | cons x xs ih =>
    intro l2 hs1 hs2 hn1 hn2 hm
    cases l2 with
    | nil => exact absurd ((hm x).mp (by simp)) (by simp)
    | cons y ys =>
      rcases List.pairwise_cons.mp hs1 with ⟨hx, hxs⟩
      rcases List.pairwise_cons.mp hs2 with ⟨hy, hys⟩
      rcases List.nodup_cons.mp hn1 with ⟨hnx, hnxs⟩
      rcases List.nodup_cons.mp hn2 with ⟨hny, hnys⟩
      have hxy : x = y := by
        rcases List.mem_cons.mp ((hm x).mp (by simp)) with hh | hh
        · exact hh
        · rcases List.mem_cons.mp ((hm y).mpr (by simp)) with hh2 | hh2
          · exact hh2.symm
          · exact strLe_antisymm (hx y hh2) (hy x hh)
      subst hxy
      have htails : ∀ a, a ∈ xs ↔ a ∈ ys := by
        intro a
        constructor
        · intro ha
          rcases List.mem_cons.mp ((hm a).mp (List.mem_cons_of_mem x ha)) with rfl | hh
          · exact absurd ha hnx
          · exact hh
        · intro ha
          rcases List.mem_cons.mp ((hm a).mpr (List.mem_cons_of_mem x ha)) with rfl | hh
          · exact absurd ha hny
          · exact hh
      rw [ih hxs hys hnxs hnys htails]

/-- The value of `sortedSet` depends only on the member set of its input. -/
theorem sortedSet_congr {l1 l2 : List String}
    (hm : ∀ a, a ∈ l1 ↔ a ∈ l2) : sortedSet l1 = sortedSet l2 :=
  sorted_nodup_eq_of_mem_iff (sortedStr_sortedSet l1) (sortedStr_sortedSet l2)
    (nodup_sortedSet l1) (nodup_sortedSet l2)
    (fun a => by rw [mem_sortedSet, mem_sortedSet]; exact hm a)

/-! ### Reading array fields back -/

theorem strsOfVal_listToVal (l : List String) : strsOfVal (listToVal l) = l := by
  induction l with
  | nil => simp [listToVal, strsOfVal]
  | cons s rest ih => simp [listToVal, strsOfVal, ih]

theorem getArr_setA_list (p : Provider) (k : String) (l : List String) :
    getArr (setA p k (listToVal l)) k = l := by
  simp [getArr, lookupA_setA_self, strsOfVal_listToVal]

theorem getArr_setA_vnil (p : Provider) (k : String) :
    getArr (setA p k .vnil) k = [] := by
  simp [getArr, lookupA_setA_self, strsOfVal]

theorem getArr_setA_ne (p : Provider) {k k' : String} (v : Val) (h : k' ≠ k) :
    getArr (setA p k v) k' = getArr p k' := by
  simp [getArr, lookupA_setA_ne _ _ h]

/-! ### Case equations for `applyField` -/

theorem applyField_rst_arr (name : String) (st : Provider × List LogEvent)
    (field : String) (v : Val) (h1 : strStartsWith field "rst-" = true)
    (h2 : strDrop field 4 ∈ ARRAY_FIELDS) :
    applyField name st field v =
      (setA st.1 (strDrop field 4) (listToVal (sortedSet (normalize_to_list v))),
       st.2) := by
  simp [applyField, h1, h2]

theorem applyField_rst_scalar (name : String) (st : Provider × List LogEvent)
    (field : String) (v : Val) (h1 : strStartsWith field "rst-" = true)
    (h2 : strDrop field 4 ∉ ARRAY_FIELDS) :
    applyField name st field v = (setA st.1 (strDrop field 4) v, st.2) := by
  simp [applyField, h1, h2]

theorem applyField_del_sentinel (name : String) (st : Provider × List LogEvent)
    (field : String) (v : Val) (h1 : strStartsWith field "rst-" = false)
    (h2 : strStartsWith field "del-" = true)
    (h3 : strDrop field 4 ∈ ARRAY_FIELDS)
    (h4 : normalize_to_list v = [KEYWORD_DELETE_ALL]) :
    applyField name st field v = (setA st.1 (strDrop field 4) .vnil, st.2) := by
  simp [applyField, h1, h2, h3, h4]

theorem applyField_del_filter (name : String) (st : Provider × List LogEvent)
    (field : String) (v : Val) (h1 : strStartsWith field "rst-" = false)
    (h2 : strStartsWith field "del-" = true)
    (h3 : strDrop field 4 ∈ ARRAY_FIELDS)
    (h4 : ¬ normalize_to_list v = [KEYWORD_DELETE_ALL]) :
    applyField name st field v =
      (setA st.1 (strDrop field 4)
        (listToVal ((getArr st.1 (strDrop field 4)).filter
          (fun x => !(normalize_to_list v).contains x))),
       st.2 ++
         (if ((normalize_to_list v).filter
             (fun x => !(getArr st.1 (strDrop field 4)).contains x)).isEmpty then []
          else [LogEvent.warning (msgDelNotFound name (strDrop field 4)
            ((normalize_to_list v).filter
              (fun x => !(getArr st.1 (strDrop field 4)).contains x)))])) := by
  simp [applyField, h1, h2, h3, h4]
  split_ifs <;> simp

theorem applyField_del_scalar (name : String) (st : Provider × List LogEvent)
    (field : String) (v : Val) (h1 : strStartsWith field "rst-" = false)
    (h2 : strStartsWith field "del-" = true)
    (h3 : strDrop field 4 ∉ ARRAY_FIELDS) :
    applyField name st field v = st := by
  simp [applyField, h1, h2, h3]

theorem applyField_append (name : String) (st : Provider × List LogEvent)
    (field : String) (v : Val) (h1 : strStartsWith field "rst-" = false)
    (h2 : strStartsWith field "del-" = false)
    (h3 : field ∈ ARRAY_FIELDS) :
    applyField name st field v =
      (setA st.1 field
        (listToVal (sortedSet (getArr st.1 field ++ normalize_to_list v))),
       st.2 ++
         (if ((normalize_to_list v).filter
             (fun x => (getArr st.1 field).contains x)).isEmpty then []
          else [LogEvent.info (msgDupSkip name field
            ((normalize_to_list v).filter
              (fun x => (getArr st.1 field).contains x)))])) := by
  simp [applyField, h1, h2, h3]
  split_ifs <;> simp

theorem applyField_scalar (name : String) (st : Provider × List LogEvent)
    (field : String) (v : Val) (h1 : strStartsWith field "rst-" = false)
    (h2 : strStartsWith field "del-" = false)
    (h3 : field ∉ ARRAY_FIELDS) :
    applyField name st field v = (setA st.1 field v, st.2) := by
  simp [applyField, h1, h2, h3]

/-! ### Decomposing a prefixed field key -/

theorem isPrefixL_eq_append {as bs : List Char} (h : isPrefixL as bs = true) :
    bs = as ++ bs.drop as.length := by
  induction as generalizing bs with
  | nil => simp
  | cons a as ih =>
    cases bs with
    | nil => simp [isPrefixL] at h
    | cons b bs =>
      simp only [isPrefixL, Bool.and_eq_true, decide_eq_true_eq] at h
      rcases h with ⟨rfl, h2⟩
      simpa [List.drop] using ih h2

theorem startsWith_eq_append {s p : String} (h : strStartsWith s p = true) :
    s = p ++ strDrop s p.toList.length := by
  have hl : s.toList = p.toList ++ s.toList.drop p.toList.length :=
    isPrefixL_eq_append h
  cases s with
  | mk sd =>
    cases p with
    | mk pd =>
      exact congrArg String.mk hl

theorem field_eq_rst_append {field : String}
    (h : strStartsWith field "rst-" = true) :
    field = "rst-" ++ strDrop field 4 := startsWith_eq_append h

theorem field_eq_del_append {field : String}
    (h : strStartsWith field "del-" = true) :
    field = "del-" ++ strDrop field 4 := startsWith_eq_append h

/-! ### What `applyField` does to `completeProvider` -/

/-- The field loop of `upsert_provider`, as a fold. -/
def applyFields (name : String) (st : Provider × List LogEvent)
    (patchData : List (String × Val)) : Provider × List LogEvent :=
  patchData.foldl (fun st kv => applyField name st kv.1 kv.2) st

theorem applyFields_nil (name : String) (st : Provider × List LogEvent) :
    applyFields name st [] = st := rfl

theorem applyFields_cons (name : String) (st : Provider × List LogEvent)
    (k : String) (w : Val) (rest : List (String × Val)) :
    applyFields name st ((k, w) :: rest) =
      applyFields name (applyField name st k w) rest := rfl

/-- A field key other than the bare `completeProvider` and
`rst-completeProvider` never writes the `completeProvider` field. -/
theorem applyField_cp_lookup (name : String) (st : Provider × List LogEvent)
    (field : String) (v : Val) (hf1 : field ≠ "completeProvider")
    (hf2 : field ≠ "rst-completeProvider") :
    lookupA (applyField name st field v).1 "completeProvider" =
      lookupA st.1 "completeProvider" := by
  have hcp : "completeProvider" ∉ ARRAY_FIELDS := by decide
  by_cases c1 : strStartsWith field "rst-" = true
  · by_cases c2 : strDrop field 4 ∈ ARRAY_FIELDS
    · rw [applyField_rst_arr name st field v c1 c2]
      exact lookupA_setA_ne _ _ (fun hh => hcp (by rw [hh]; exact c2))
    · rw [applyField_rst_scalar name st field v c1 c2]
      refine lookupA_setA_ne _ _ (fun hh => hf2 ?_)
      rw [field_eq_rst_append c1, ← hh]
      rfl
  · rw [Bool.not_eq_true] at c1
    by_cases c2 : strStartsWith field "del-" = true
    · by_cases c3 : strDrop field 4 ∈ ARRAY_FIELDS
      · by_cases c4 : normalize_to_list v = [KEYWORD_DELETE_ALL]
        · rw [applyField_del_sentinel name st field v c1 c2 c3 c4]
          exact lookupA_setA_ne _ _ (fun hh => hcp (by rw [hh]; exact c3))
        · rw [applyField_del_filter name st field v c1 c2 c3 c4]
          exact lookupA_setA_ne _ _ (fun hh => hcp (by rw [hh]; exact c3))
      · rw [applyField_del_scalar name st field v c1 c2 c3]
    · rw [Bool.not_eq_true] at c2
      by_cases c3 : field ∈ ARRAY_FIELDS
      · rw [applyField_append name st field v c1 c2 c3]
        exact lookupA_setA_ne _ _ (fun hh => hcp (by rw [hh]; exact c3))
      · rw [applyField_scalar name st field v c1 c2 c3]
        exact lookupA_setA_ne _ _ (fun hh => hf1 hh.symm)

theorem applyFields_cp_lookup (name : String) (kvs : List (String × Val))
    (st : Provider × List LogEvent)
    (h1 : "completeProvider" ∉ keysA kvs)
    (h2 : "rst-completeProvider" ∉ keysA kvs) :
    lookupA (applyFields name st kvs).1 "completeProvider" =
      lookupA st.1 "completeProvider" := by
  induction kvs generalizing st with
  | nil => rfl
  | cons kv rest ih =>
    obtain ⟨k, w⟩ := kv
    simp only [keysA, List.map_cons, List.mem_cons] at h1 h2
    push_neg at h1 h2
    rw [applyFields_cons]
    rw [ih (applyField name st k w) (by simpa [keysA] using h1.2)
      (by simpa [keysA] using h2.2)]
    exact applyField_cp_lookup name st k w (fun hh => h1.1 hh.symm)
      (fun hh => h2.1 hh.symm)

theorem applyFields_cp_set (name : String) (kvs : List (String × Val))
    (st : Provider × List LogEvent) (v : Val)
    (hnd : (keysA kvs).Nodup) (hrst : "rst-completeProvider" ∉ keysA kvs)
    (hlook : lookupA kvs "completeProvider" = some v) :
    lookupA (applyFields name st kvs).1 "completeProvider" = some v := by
  induction kvs generalizing st with
  | nil => exact absurd hlook (by simp [lookupA])
  | cons kv rest ih =>
    obtain ⟨k, w⟩ := kv
    simp only [keysA, List.map_cons, List.nodup_cons] at hnd
    simp only [keysA, List.map_cons, List.mem_cons] at hrst
    push_neg at hrst
    by_cases hk : k = "completeProvider"
    · subst hk
      have hv : w = v := by simpa [lookupA] using hlook
      rw [applyFields_cons,
        applyField_scalar name st "completeProvider" w (by decide) (by decide)
          (by decide)]
      rw [applyFields_cp_lookup name rest _ (by simpa [keysA] using hnd.1)
        (by simpa [keysA] using hrst.2)]
      rw [lookupA_setA_self, hv]
    · have hlook2 : lookupA rest "completeProvider" = some v := by
        simpa [lookupA, hk] using hlook
      rw [applyFields_cons]
      exact ih (applyField name st k w) hnd.2 (by simpa [keysA] using hrst.2) hlook2

/-! ### Characterizations of `upsert_provider` -/

theorem upsert_provider_empty (provs : Catalog) (name s : String) :
    upsert_provider provs name [] s = (provs, []) := rfl

theorem upsert_lookup_self (provs : Catalog) (name : String)
    (patch : List (String × Val)) (s : String) (hne : patch ≠ []) :
    lookupA (upsert_provider provs name patch s).1 name =
      some (recomputeComplete patch
        (applyFields name ((lookupA provs name).getD DEFAULT_PROVIDER, []) patch).1) := by
  cases patch with
  | nil => exact absurd rfl hne
  | cons kv rest =>
    by_cases he : (lookupA provs name).isSome
    · obtain ⟨p0, hp0⟩ := Option.isSome_iff_exists.mp he
      by_cases hs1 : s = "add-providers"
      · simp [upsert_provider, applyFields, hs1, hp0, lookupA_setA_self]
      · by_cases hs2 : s = "modify-providers"
        · simp [upsert_provider, applyFields, hs1, hs2, hp0, lookupA_setA_self]
        · simp [upsert_provider, applyFields, hs1, hs2, hp0, lookupA_setA_self]
    · have hp0 : lookupA provs name = none := Option.not_isSome_iff_eq_none.mp he
      by_cases hs1 : s = "add-providers"
      · simp [upsert_provider, applyFields, hs1, hp0, lookupA_setA_self]
      · by_cases hs2 : s = "modify-providers"
        · simp [upsert_provider, applyFields, hs1, hs2, hp0, lookupA_setA_self]
        · simp [upsert_provider, applyFields, hs1, hs2, hp0, lookupA_setA_self]

theorem upsert_lookup_ne (provs : Catalog) (name : String)
    (patch : List (String × Val)) (s : String) {other : String}
    (h : other ≠ name) :
    lookupA (upsert_provider provs name patch s).1 other =
      lookupA provs other := by
  cases patch with
  | nil => rfl
  | cons kv rest =>
    by_cases he : (lookupA provs name).isSome
    · obtain ⟨p0, hp0⟩ := Option.isSome_iff_exists.mp he
      by_cases hs1 : s = "add-providers"
      · simp [upsert_provider, hs1, hp0, lookupA_setA_ne _ _ h]
      · by_cases hs2 : s = "modify-providers"
        · simp [upsert_provider, hs1, hs2, hp0, lookupA_setA_ne _ _ h]
        · simp [upsert_provider, hs1, hs2, hp0, lookupA_setA_ne _ _ h]
    · have hp0 : lookupA provs name = none := Option.not_isSome_iff_eq_none.mp he
      by_cases hs1 : s = "add-providers"
      · simp [upsert_provider, hs1, hp0, lookupA_setA_ne _ _ h, lookupA_setA_self]
      · by_cases hs2 : s = "modify-providers"
        · simp [upsert_provider, hs1, hs2, hp0, lookupA_setA_ne _ _ h, lookupA_setA_self]
        · simp [upsert_provider, hs1, hs2, hp0, lookupA_setA_ne _ _ h, lookupA_setA_self]

/-! ### Phase-level lemmas for `process_rules` -/

theorem eraseA_of_lookup_none {α : Type} {m : List (String × α)} {k : String}
    (h : lookupA m k = none) : eraseA m k = m := by
  induction m with
  | nil => rfl
  | cons kv rest ih =>
    obtain ⟨k1, v1⟩ := kv
    by_cases h1 : k1 = k
    · subst h1
      simp [lookupA] at h
    · simp only [lookupA, h1, if_false] at h
      simp [eraseA, h1, ih h]

theorem deleteStep_lookup_ne (st : Catalog × List LogEvent) (nm : String)
    {other : String} (h : other ≠ nm) :
    lookupA (deleteStep st nm).1 other = lookupA st.1 other := by
  by_cases he : (lookupA st.1 nm).isSome
  · simp [deleteStep, he, lookupA_eraseA_ne _ h]
  · simp [deleteStep, he]

theorem deleteStep_keysNodup (st : Catalog × List LogEvent) (nm : String)
    (h : (keysA st.1).Nodup) : (keysA (deleteStep st nm).1).Nodup := by
  by_cases he : (lookupA st.1 nm).isSome
  · simp only [deleteStep, he, if_true, if_pos he]
    exact keysA_nodup_eraseA nm h
  · simpa [deleteStep, he] using h

theorem deleteStep_lookup_none (st : Catalog × List LogEvent) (nm : String)
    {k : String} (h : lookupA st.1 k = none) :
    lookupA (deleteStep st nm).1 k = none := by
  by_cases he : (lookupA st.1 nm).isSome
  · by_cases hk : k = nm
    · subst hk
      simp [h] at he
    · simp [deleteStep, he, lookupA_eraseA_ne _ hk, h]
  · simpa [deleteStep, he] using h

theorem deleteStep_lookup_self (st : Catalog × List LogEvent) (nm : String)
    (h : (keysA st.1).Nodup) : lookupA (deleteStep st nm).1 nm = none := by
  by_cases he : (lookupA st.1 nm).isSome
  · simp only [deleteStep, he, if_true, if_pos he]
    exact lookupA_eraseA_self st.1 nm h
  · simpa [deleteStep, he] using Option.not_isSome_iff_eq_none.mp he

theorem delFold_keysNodup (l : List String) (st : Catalog × List LogEvent)
    (h : (keysA st.1).Nodup) : (keysA (l.foldl deleteStep st).1).Nodup := by
  induction l generalizing st with
  | nil => exact h
  | cons nm rest ih => exact ih (deleteStep st nm) (deleteStep_keysNodup st nm h)

theorem delFold_lookup_notmem (l : List String) (st : Catalog × List LogEvent)
    {name : String} (h : name ∉ l) :
    lookupA (l.foldl deleteStep st).1 name = lookupA st.1 name := by
  induction l generalizing st with
  | nil => rfl
  | cons nm rest ih =>
    have hne : name ≠ nm := fun hh => h (by simp [hh])
    rw [List.foldl_cons, ih (deleteStep st nm) (fun hh => h (by simp [hh]))]
    exact deleteStep_lookup_ne st nm hne

theorem delFold_lookup_none (l : List String) (st : Catalog × List LogEvent)
    {name : String} (hnd : (keysA st.1).Nodup)
    (h : name ∈ l ∨ lookupA st.1 name = none) :
    lookupA (l.foldl deleteStep st).1 name = none := by
  induction l generalizing st with
  | nil =>
    rcases h with h | h
    · simp at h
    · exact h
  | cons nm rest ih =>
    rw [List.foldl_cons]
    have hnd2 := deleteStep_keysNodup st nm hnd
    rcases h with h | h
    · rcases List.mem_cons.mp h with rfl | h2
      · exact ih (deleteStep st name) hnd2 (Or.inr (deleteStep_lookup_self st name hnd))
      · exact ih (deleteStep st nm) hnd2 (Or.inl h2)
    · exact ih (deleteStep st nm) hnd2 (Or.inr (deleteStep_lookup_none st nm h))

theorem upsertStep_lookup_ne (s : String) (st : Catalog × List LogEvent)
    (entry : String × List (String × Val)) {other : String}
    (h : other ≠ entry.1) :
    lookupA (upsertStep s st entry).1 other = lookupA st.1 other :=
  upsert_lookup_ne st.1 entry.1 entry.2 s h

theorem upsertFold_lookup_notmem (s : String)
    (entries : List (String × List (String × Val)))
    (st : Catalog × List LogEvent) {name : String}
    (h : name ∉ keysA entries) :
    lookupA (entries.foldl (upsertStep s) st).1 name = lookupA st.1 name := by
  induction entries generalizing st with
  | nil => rfl
  | cons e rest ih =>
    simp only [keysA, List.map_cons, List.mem_cons] at h
    push_neg at h
    rw [List.foldl_cons, ih (upsertStep s st e) (by simpa [keysA] using h.2)]
    exact upsertStep_lookup_ne s st e h.1

/-- The record an `add-providers` upsert binds to a name that is absent
from the catalog. -/
theorem upsert_create (provs : Catalog) (name : String)
    (patch : List (String × Val)) (s : String)
    (h0 : lookupA provs name = none) (hne : patch ≠ []) :
    lookupA (upsert_provider provs name patch s).1 name =
      some (patchedDefault name patch) := by
  rw [upsert_lookup_self provs name patch s hne, h0]
  rfl

theorem addFold_lookup (entries : List (String × List (String × Val)))
    (st : Catalog × List LogEvent) {name : String}
    {patch : List (String × Val)}
    (hnd : (keysA entries).Nodup)
    (hlook : lookupA entries name = some patch) (hne : patch ≠ [])
    (h0 : lookupA st.1 name = none) :
    lookupA (entries.foldl (upsertStep "add-providers") st).1 name =
      some (patchedDefault name patch) := by
  induction entries generalizing st with
  | nil => exact absurd hlook (by simp [lookupA])
  | cons e rest ih =>
    obtain ⟨nm, p⟩ := e
    simp only [keysA, List.map_cons, List.nodup_cons] at hnd
    by_cases hk : nm = name
    · subst hk
      have hp : p = patch := by simpa [lookupA] using hlook
      subst hp
      rw [List.foldl_cons,
        upsertFold_lookup_notmem "add-providers" rest _ (by simpa [keysA] using hnd.1)]
      exact upsert_create st.1 nm p "add-providers" h0 hne
    · have hlook2 : lookupA rest name = some patch := by
        simpa [lookupA, hk] using hlook
      rw [List.foldl_cons]
      exact ih (upsertStep "add-providers" st (nm, p)) hnd.2 hlook2
        (by rw [upsertStep_lookup_ne _ _ _ (fun hh => hk hh.symm)]; exact h0)

/-! ### Helper facts about `del-`/`rst-` prefixed keys -/

theorem toList_append (a b : String) : (a ++ b).toList = a.toList ++ b.toList := by
  cases a
  cases b
  rfl

theorem mk_toList (s : String) : String.mk s.toList = s := rfl

theorem delAppend_toList (f : String) :
    ("del-" ++ f).toList = 'd' :: 'e' :: 'l' :: '-' :: f.toList := by
  rw [toList_append]
  rfl

theorem isPrefixL_cons_ne {a b : Char} (h : ¬ a = b) (as bs : List Char) :
    isPrefixL (a :: as) (b :: bs) = false := by
  simp [isPrefixL, h]

theorem isPrefixL_append_self (as cs : List Char) :
    isPrefixL as (as ++ cs) = true := by
  induction as with
  | nil => rfl
  | cons a as ih => simp [isPrefixL, ih]

theorem strStartsWith_del_append (f : String) :
    strStartsWith ("del-" ++ f) "del-" = true := by
  show isPrefixL "del-".toList ("del-" ++ f).toList = true
  rw [toList_append]
  exact isPrefixL_append_self _ _

theorem strStartsWith_rst_del_append (f : String) :
    strStartsWith ("del-" ++ f) "rst-" = false := by
  show isPrefixL "rst-".toList ("del-" ++ f).toList = false
  rw [delAppend_toList]
  exact isPrefixL_cons_ne (by decide) _ _

theorem strDrop_del_append (f : String) : strDrop ("del-" ++ f) 4 = f := by
  show String.mk (("del-" ++ f).toList.drop 4) = f
  rw [delAppend_toList]
  exact mk_toList f

/-! ### The claims -/

/-- Claim C5: the value normalizer: on a string it replaces commas by
spaces, splits on whitespace runs and applies the quote-stripping rules
per token (`normalizeStr`); on any non-string non-list input it yields
the empty sequence; and the three §8 examples evaluate as the spec
states.  (The list case recurses element-wise by definition of
`normalize_to_list`.) -/
theorem normalize_spec :
    (∀ s : String, normalize_to_list (.vstr s) =
        (pySplit (commaToSpace s.toList)).map pyProcessToken) ∧
    normalize_to_list (.vbool true) = [] ∧
    normalize_to_list (.vbool false) = [] ∧
    normalize_to_list .vnull = [] ∧
    normalize_to_list (.vstr "\"a\\\\b\"") = ["a\\b"] ∧
    normalize_to_list (.vstr "\x27^https?://\x27") = ["^https?://"] ∧
    normalize_to_list (.vstr "a,b c") = ["a", "b", "c"] :=
  ⟨fun _ => rfl, rfl, rfl, rfl, by decide, by decide, by decide⟩

/-- Claim C10: frame property of patching: a record name that occurs in
none of the three patch-document sections is bound in the merged catalog
to exactly its baseline record, and an upsert with a falsy (empty) patch
object changes nothing and creates no record. -/
theorem process_rules_frame (upstream : Catalog) (custom : PatchDoc)
    (name : String)
    (h1 : name ∉ normalize_to_list custom.delProviders)
    (h2 : name ∉ keysA custom.addProviders)
    (h3 : name ∉ keysA custom.modifyProviders) :
    lookupA (process_rules upstream custom).1 name = lookupA upstream name ∧
    (∀ (provs : Catalog) (nm sec : String),
      upsert_provider provs nm [] sec = (provs, [])) := by
  constructor
  · simp only [process_rules]
    rw [upsertFold_lookup_notmem _ _ _ h3, upsertFold_lookup_notmem _ _ _ h2,
      delFold_lookup_notmem _ _ h1]
  · intro provs nm sec
    rfl

/-- Witness for C10 at a concrete input. -/
theorem process_rules_frame_witness :
    (("y" ∉ normalize_to_list (Val.vstr "x")) ∧
      ("y" ∉ keysA ([("x", [("rules", Val.vstr "a")])] :
        List (String × List (String × Val)))) ∧
      ("y" ∉ keysA ([] : List (String × List (String × Val))))) ∧
    (lookupA (process_rules [("y", DEFAULT_PROVIDER)]
        ⟨Val.vstr "x", [("x", [("rules", Val.vstr "a")])], []⟩).1 "y" =
      lookupA [("y", DEFAULT_PROVIDER)] "y" ∧
    (∀ (provs : Catalog) (nm sec : String),
      upsert_provider provs nm [] sec = (provs, []))) :=
  ⟨⟨by decide, by decide, by decide⟩,
   process_rules_frame [("y", DEFAULT_PROVIDER)]
     ⟨Val.vstr "x", [("x", [("rules", Val.vstr "a")])], []⟩ "y"
     (by decide) (by decide) (by decide)⟩

/-- Claim C2, amended: deletions run before additions, which run before
modifications; a name in both `del-providers` and `add-providers` whose
add patch object is non-empty and which is not also a key of
`modify-providers` ends up bound to the record obtained by applying the
add patch to a fresh default record. -/
theorem process_rules_del_then_add (upstream : Catalog) (custom : PatchDoc)
    (name : String) (patch : List (String × Val))
    (hU : (keysA upstream).Nodup)
    (hA : (keysA custom.addProviders).Nodup)
    (hdel : name ∈ normalize_to_list custom.delProviders)
    (hadd : lookupA custom.addProviders name = some patch)
    (hne : patch ≠ [])
    (hmod : name ∉ keysA custom.modifyProviders) :
    lookupA (process_rules upstream custom).1 name =
      some (patchedDefault name patch) := by
  simp only [process_rules]
  rw [upsertFold_lookup_notmem _ _ _ hmod]
  exact addFold_lookup _ _ hA hadd hne
    (delFold_lookup_none _ _ hU (Or.inl hdel))

/-- Counterexample to C2 as stated: with an empty (falsy) add patch
object the record is *not* recreated (first conjunct), and when the name
is also a key of `modify-providers` the merged record is not the one
obtained from the add patch on a fresh default (second conjunct). -/
theorem process_rules_del_then_add_cex :
    lookupA (process_rules [("x", DEFAULT_PROVIDER)]
        ⟨Val.vstr "x", [("x", [])], []⟩).1 "x" = none ∧
    lookupA (process_rules [("x", DEFAULT_PROVIDER)]
        ⟨Val.vstr "x", [("x", [("rules", Val.vstr "a")])],
         [("x", [("rules", Val.vstr "b")])]⟩).1 "x" ≠
      some (patchedDefault "x" [("rules", Val.vstr "a")]) := by
  constructor
  · decide
  · decide

/-- Witness for C2 at a concrete input. -/
theorem process_rules_del_then_add_witness :
    ((keysA ([("x", DEFAULT_PROVIDER)] : Catalog)).Nodup ∧
     (keysA ([("x", [("rules", Val.vstr "a")])] :
       List (String × List (String × Val)))).Nodup ∧
     "x" ∈ normalize_to_list (Val.vstr "x") ∧
     lookupA ([("x", [("rules", Val.vstr "a")])] :
       List (String × List (String × Val))) "x" = some [("rules", Val.vstr "a")] ∧
     ([("rules", Val.vstr "a")] : List (String × Val)) ≠ [] ∧
     "x" ∉ keysA ([] : List (String × List (String × Val)))) ∧
    lookupA (process_rules [("x", DEFAULT_PROVIDER)]
        ⟨Val.vstr "x", [("x", [("rules", Val.vstr "a")])], []⟩).1 "x" =
      some (patchedDefault "x" [("rules", Val.vstr "a")]) :=
  ⟨⟨by decide, by decide, by decide, by decide, by decide, by decide⟩,
   process_rules_del_then_add [("x", DEFAULT_PROVIDER)]
     ⟨Val.vstr "x", [("x", [("rules", Val.vstr "a")])], []⟩ "x"
     [("rules", Val.vstr "a")]
     (by decide) (by decide) (by decide) (by decide) (by decide) (by decide)⟩

/-- Claim C1, amended: after an upsert with a non-empty patch object: if
the patch supplied the bare key `completeProvider`, the resulting
record's `completeProvider` is the supplied value (stated for a patch
with dict-unique keys and no `rst-completeProvider` key); otherwise —
even when `rst-completeProvider` was supplied — it is recomputed to be
`true` iff all four rule array fields of the resulting record are empty
(the `exceptions` field does not count). -/
theorem upsert_completeProvider (provs : Catalog) (name : String)
    (patch : List (String × Val)) (s : String) (hne : patch ≠ []) :
    ∃ tgt, lookupA (upsert_provider provs name patch s).1 name = some tgt ∧
      ("completeProvider" ∉ keysA patch →
        ∃ b, lookupA tgt "completeProvider" = some (.vbool b) ∧
          (b = true ↔ ∀ f ∈ RULE_FIELDS, getArr tgt f = [])) ∧
      (∀ v : Val, (keysA patch).Nodup → "rst-completeProvider" ∉ keysA patch →
        lookupA patch "completeProvider" = some v →
        lookupA tgt "completeProvider" = some v) := by
  refine ⟨recomputeComplete patch
    (applyFields name ((lookupA provs name).getD DEFAULT_PROVIDER, []) patch).1,
    upsert_lookup_self provs name patch s hne, ?_, ?_⟩
  · intro hnotmem
    have hcontains : (keysA patch).contains "completeProvider" = false := by
      rw [Bool.eq_false_iff]
      intro hc
      exact hnotmem (containsStr_iff.mp hc)
    set applied := (applyFields name
      ((lookupA provs name).getD DEFAULT_PROVIDER, []) patch).1 with happ
    have hrec : recomputeComplete patch applied =
        setA applied "completeProvider"
          (.vbool (!RULE_FIELDS.any (fun f => 0 < (getArr applied f).length))) := by
      rw [recomputeComplete, hcontains]
      simp
    rw [hrec]
    refine ⟨!RULE_FIELDS.any (fun f => 0 < (getArr applied f).length),
      lookupA_setA_self _ _ _, ?_⟩
    have hfr : ∀ f ∈ RULE_FIELDS,
        getArr (setA applied "completeProvider"
          (.vbool (!RULE_FIELDS.any (fun g => 0 < (getArr applied g).length)))) f =
        getArr applied f := by
      intro f hf
      have hcp : ¬ f = "completeProvider" := by
        rcases (by simpa [RULE_FIELDS] using hf :
          f = "rules" ∨ f = "referralMarketing" ∨ f = "rawRules" ∨
            f = "redirections") with rfl | rfl | rfl | rfl <;> decide
      exact getArr_setA_ne _ _ hcp
    constructor
    · intro hb f hf
      rw [hfr f hf]
      rw [Bool.not_eq_true'] at hb
      rw [List.any_eq_false] at hb
      have hnotpos : ¬ 0 < (getArr applied f).length := by simpa using hb f hf
      exact List.eq_nil_of_length_eq_zero (Nat.eq_zero_of_not_pos hnotpos)
    · intro hall
      rw [Bool.not_eq_true']
      rw [List.any_eq_false]
      intro f hf
      have := hall f hf
      rw [hfr f hf] at this
      simp [this]
  · intro v hnd hrst hlook
    have hcontains : (keysA patch).contains "completeProvider" = true :=
      containsStr_iff.mpr (mem_keys_of_lookupA_some hlook)
    have hrec : recomputeComplete patch
        (applyFields name ((lookupA provs name).getD DEFAULT_PROVIDER, []) patch).1 =
        (applyFields name ((lookupA provs name).getD DEFAULT_PROVIDER, []) patch).1 := by
      rw [recomputeComplete, hcontains]
      simp
    rw [hrec]
    exact applyFields_cp_set name patch _ v hnd hrst hlook

/-- Counterexample to C1 as stated: supplying `completeProvider` through
the reset key `rst-completeProvider` (here with value `false`, on a
record with all rule arrays empty) does not win over derivation — the
recomputation overwrites it with `true`. -/
theorem upsert_completeProvider_cex :
    (lookupA (upsert_provider [] "x"
        [("rst-completeProvider", Val.vbool false)] "modify-providers").1 "x").map
      (fun t => lookupA t "completeProvider") = some (some (Val.vbool true)) ∧
    Val.vbool true ≠ Val.vbool false := by
  constructor
  · decide
  · decide

/-- Witness for C1 at a concrete input. -/
theorem upsert_completeProvider_witness :
    (([("rules", Val.vstr "a")] : List (String × Val)) ≠ []) ∧
    (∃ tgt, lookupA (upsert_provider [] "x" [("rules", Val.vstr "a")]
        "modify-providers").1 "x" = some tgt ∧
      ("completeProvider" ∉ keysA [("rules", Val.vstr "a")] →
        ∃ b, lookupA tgt "completeProvider" = some (.vbool b) ∧
          (b = true ↔ ∀ f ∈ RULE_FIELDS, getArr tgt f = [])) ∧
      (∀ v : Val, (keysA [("rules", Val.vstr "a")]).Nodup →
        "rst-completeProvider" ∉ keysA [("rules", Val.vstr "a")] →
        lookupA [("rules", Val.vstr "a")] "completeProvider" = some v →
        lookupA tgt "completeProvider" = some v)) :=
  ⟨by decide,
   upsert_completeProvider [] "x" [("rules", Val.vstr "a")] "modify-providers"
     (by decide)⟩

/-- Claim C3: delete mode on an array field: if the normalized input is
exactly `["DELETE_ENTIRE_ARRAY"]` the field becomes the empty list
regardless of prior content; otherwise the field becomes its current
values with every element of the normalized input removed, and exactly
when some input elements are missing from the current values a single
warning-level not-found diagnostic listing them is emitted.  The
operation is total — it never fails the run. -/
theorem applyField_delete_mode (name : String) (target : Provider)
    (logs : List LogEvent) (f : String) (v : Val) (hf : f ∈ ARRAY_FIELDS) :
    applyField name (target, logs) ("del-" ++ f) v =
      (if normalize_to_list v = [KEYWORD_DELETE_ALL]
       then (setA target f .vnil, logs)
       else
        (setA target f (listToVal ((getArr target f).filter
            (fun x => !(normalize_to_list v).contains x))),
         logs ++ (if ((normalize_to_list v).filter
             (fun x => !(getArr target f).contains x)).isEmpty then []
           else [LogEvent.warning (msgDelNotFound name f
             ((normalize_to_list v).filter
               (fun x => !(getArr target f).contains x)))]))) := by
  have hr := strStartsWith_rst_del_append f
  have hd := strStartsWith_del_append f
  have hdrop := strDrop_del_append f
  have hmem : strDrop ("del-" ++ f) 4 ∈ ARRAY_FIELDS := by rw [hdrop]; exact hf
  by_cases hsent : normalize_to_list v = [KEYWORD_DELETE_ALL]
  · rw [if_pos hsent,
      applyField_del_sentinel name (target, logs) _ v hr hd hmem hsent, hdrop]
  · rw [if_neg hsent,
      applyField_del_filter name (target, logs) _ v hr hd hmem hsent, hdrop]

/-- Witness for C3 at a concrete input. -/
theorem applyField_delete_mode_witness :
    ("rules" ∈ ARRAY_FIELDS) ∧
    applyField "x" ([("rules", listToVal ["a", "b"])], []) ("del-" ++ "rules")
        (Val.vstr "a c") =
      (if normalize_to_list (Val.vstr "a c") = [KEYWORD_DELETE_ALL]
       then (setA [("rules", listToVal ["a", "b"])] "rules" .vnil, [])
       else
        (setA [("rules", listToVal ["a", "b"])] "rules"
          (listToVal ((getArr [("rules", listToVal ["a", "b"])] "rules").filter
            (fun x => !(normalize_to_list (Val.vstr "a c")).contains x))),
         [] ++ (if ((normalize_to_list (Val.vstr "a c")).filter
             (fun x => !(getArr [("rules", listToVal ["a", "b"])] "rules").contains x)).isEmpty
           then ([] : List LogEvent)
           else [LogEvent.warning (msgDelNotFound "x" "rules"
             ((normalize_to_list (Val.vstr "a c")).filter
               (fun x => !(getArr [("rules", listToVal ["a", "b"])] "rules").contains x)))]))) :=
  ⟨by decide,
   applyField_delete_mode "x" [("rules", listToVal ["a", "b"])] [] "rules"
     (Val.vstr "a c") (by decide)⟩

/-- Helper for C4: append to an array field stores the deduplicated
sorted union, and a second identical append does not change it. -/
theorem append_idem_aux (name : String) (target : Provider)
    (logs logs2 : List LogEvent) (f : String) (v : Val)
    (hr : strStartsWith f "rst-" = false) (hd : strStartsWith f "del-" = false)
    (hc : f ∈ ARRAY_FIELDS) :
    getArr (applyField name (target, logs) f v).1 f =
      sortedSet (getArr target f ++ normalize_to_list v) ∧
    getArr (applyField name ((applyField name (target, logs) f v).1, logs2) f v).1 f =
      getArr (applyField name (target, logs) f v).1 f := by
  have h1 : (applyField name (target, logs) f v).1 =
      setA target f (listToVal (sortedSet (getArr target f ++ normalize_to_list v))) := by
    rw [applyField_append name (target, logs) f v hr hd hc]
  have hg1 : getArr (applyField name (target, logs) f v).1 f =
      sortedSet (getArr target f ++ normalize_to_list v) := by
    rw [h1, getArr_setA_list]
  refine ⟨hg1, ?_⟩
  have h2 : (applyField name ((applyField name (target, logs) f v).1, logs2) f v).1 =
      setA (applyField name (target, logs) f v).1 f
        (listToVal (sortedSet (getArr (applyField name (target, logs) f v).1 f ++
          normalize_to_list v))) := by
    rw [applyField_append name ((applyField name (target, logs) f v).1, logs2) f v hr hd hc]
  rw [h2, getArr_setA_list, hg1]
  apply sortedSet_congr
  intro a
  simp only [List.mem_append, mem_sortedSet]
  tauto

/-- Claim C4: append is idempotent: under a bare array-field key, the
field after one append is the deduplicated `strLe`-sorted union of the
prior values and the normalized input, and applying the same append
patch a second time leaves the field exactly equal. -/
theorem append_idempotent (name : String) (target : Provider)
    (logs logs2 : List LogEvent) (f : String) (v : Val) (hf : f ∈ ARRAY_FIELDS) :
    getArr (applyField name (target, logs) f v).1 f =
      sortedSet (getArr target f ++ normalize_to_list v) ∧
    getArr (applyField name ((applyField name (target, logs) f v).1, logs2) f v).1 f =
      getArr (applyField name (target, logs) f v).1 f := by
  rcases (by simpa [ARRAY_FIELDS, RULE_FIELDS] using hf :
      f = "rules" ∨ f = "referralMarketing" ∨ f = "rawRules" ∨
        f = "redirections" ∨ f = "exceptions") with rfl | rfl | rfl | rfl | rfl <;>
    exact append_idem_aux name target logs logs2 _ v (by decide) (by decide)
      (by decide)

/-- Witness for C4 at a concrete input. -/
theorem append_idempotent_witness :
    ("rules" ∈ ARRAY_FIELDS) ∧
    (getArr (applyField "x" ([("rules", listToVal ["b"])], []) "rules"
        (Val.vstr "a b")).1 "rules" =
      sortedSet (getArr [("rules", listToVal ["b"])] "rules" ++
        normalize_to_list (Val.vstr "a b")) ∧
    getArr (applyField "x"
        ((applyField "x" ([("rules", listToVal ["b"])], []) "rules"
          (Val.vstr "a b")).1, []) "rules" (Val.vstr "a b")).1 "rules" =
      getArr (applyField "x" ([("rules", listToVal ["b"])], []) "rules"
        (Val.vstr "a b")).1 "rules") :=
  ⟨by decide,
   append_idempotent "x" [("rules", listToVal ["b"])] [] [] "rules"
     (Val.vstr "a b") (by decide)⟩

/-- The sorted-set storage invariant on the five array fields of a
record: each is duplicate-free and `strLe`-sorted. -/
def arrOK (p : Provider) : Prop :=
  ∀ f ∈ ARRAY_FIELDS, SortedStr (getArr p f) ∧ (getArr p f).Nodup

instance arrOK_decidable (p : Provider) : Decidable (arrOK p) := by
  unfold arrOK SortedStr
  infer_instance

theorem arrOK_setA_sortedSet {p : Provider} (k : String) (l : List String)
    (h : arrOK p) : arrOK (setA p k (listToVal (sortedSet l))) := by
  intro f hf
  by_cases hk : f = k
  · subst hk
    rw [getArr_setA_list]
    exact ⟨sortedStr_sortedSet l, nodup_sortedSet l⟩
  · rw [getArr_setA_ne _ _ hk]
    exact h f hf

theorem arrOK_setA_outside {p : Provider} {k : String} (w : Val)
    (hk : k ∉ ARRAY_FIELDS) (h : arrOK p) : arrOK (setA p k w) := by
  intro f hf
  rw [getArr_setA_ne _ _ (fun hh => hk (by rw [← hh]; exact hf))]
  exact h f hf

/-- Every single field operation preserves the sorted-set invariant. -/
theorem applyField_arrOK (name : String) (st : Provider × List LogEvent)
    (field : String) (v : Val) (h : arrOK st.1) :
    arrOK (applyField name st field v).1 := by
  by_cases c1 : strStartsWith field "rst-" = true
  · by_cases c2 : strDrop field 4 ∈ ARRAY_FIELDS
    · rw [applyField_rst_arr name st field v c1 c2]
      exact arrOK_setA_sortedSet _ _ h
    · rw [applyField_rst_scalar name st field v c1 c2]
      exact arrOK_setA_outside v c2 h
  · rw [Bool.not_eq_true] at c1
    by_cases c2 : strStartsWith field "del-" = true
    · by_cases c3 : strDrop field 4 ∈ ARRAY_FIELDS
      · by_cases c4 : normalize_to_list v = [KEYWORD_DELETE_ALL]
        · rw [applyField_del_sentinel name st field v c1 c2 c3 c4]
          intro f hf
          by_cases hk : f = strDrop field 4
          · subst hk
            rw [getArr_setA_vnil]
            exact ⟨by simp [SortedStr], by simp⟩
          · rw [getArr_setA_ne _ _ hk]
            exact h f hf
        · rw [applyField_del_filter name st field v c1 c2 c3 c4]
          intro f hf
          by_cases hk : f = strDrop field 4
          · subst hk
            rw [getArr_setA_list]
            exact ⟨List.Pairwise.filter _ (h _ c3).1, (h _ c3).2.filter _⟩
          · rw [getArr_setA_ne _ _ hk]
            exact h f hf
      · rw [applyField_del_scalar name st field v c1 c2 c3]
        exact h
    · rw [Bool.not_eq_true] at c2
      by_cases c3 : field ∈ ARRAY_FIELDS
      · rw [applyField_append name st field v c1 c2 c3]
        exact arrOK_setA_sortedSet _ _ h
      · rw [applyField_scalar name st field v c1 c2 c3]
        exact arrOK_setA_outside v c3 h

/-- Claim C9: sorted-set invariant: starting from a record whose five
array fields are duplicate-free and lexicographically sorted, any
sequence of field operations (append, `rst-` reset, `del-` delete, or
scalar writes) leaves every array field duplicate-free and sorted — the
patch engine preserves the canonical storage order. -/
theorem applyFields_arrOK (name : String) (kvs : List (String × Val))
    (st : Provider × List LogEvent) (h : arrOK st.1) :
    arrOK (applyFields name st kvs).1 := by
  induction kvs generalizing st with
  | nil => exact h
  | cons kv rest ih =>
    obtain ⟨k, w⟩ := kv
    rw [applyFields_cons]
    exact ih (applyField name st k w) (applyField_arrOK name st k w h)

/-- Witness for C9 at a concrete input. -/
theorem applyFields_arrOK_witness :
    arrOK DEFAULT_PROVIDER ∧
    arrOK (applyFields "x" (DEFAULT_PROVIDER, [])
      [("rules", Val.vstr "b a"), ("del-rules", Val.vstr "a"),
       ("rst-exceptions", Val.vstr "z y")]).1 :=
  ⟨by decide,
   applyFields_arrOK "x"
     [("rules", Val.vstr "b a"), ("del-rules", Val.vstr "a"),
      ("rst-exceptions", Val.vstr "z y")]
     (DEFAULT_PROVIDER, []) (by decide)⟩

/-- Claim C7, amended: a del- prefix applied to a base name that is
not an array field is silently ignored: the record and the log are left
exactly unchanged by that key (and, being total, the operation never
fails the run).  A bare field key matching no array field — including
unknown names — is *not* ignored: it is written onto the record as a
scalar overwrite, and likewise a `rst-` key with an unknown base name is
written under its stripped base name. -/
theorem malformed_field_keys :
    (∀ (name : String) (st : Provider × List LogEvent) (field : String)
       (v : Val), strStartsWith field "del-" = true →
       strDrop field 4 ∉ ARRAY_FIELDS → applyField name st field v = st) ∧
    (∀ (name : String) (st : Provider × List LogEvent) (field : String)
       (v : Val), strStartsWith field "rst-" = false →
       strStartsWith field "del-" = false → field ∉ ARRAY_FIELDS →
       applyField name st field v = (setA st.1 field v, st.2)) ∧
    (∀ (name : String) (st : Provider × List LogEvent) (field : String)
       (v : Val), strStartsWith field "rst-" = true →
       strDrop field 4 ∉ ARRAY_FIELDS →
       applyField name st field v = (setA st.1 (strDrop field 4) v, st.2)) := by
  refine ⟨?_, ?_, ?_⟩
  · intro name st field v hdel hnot
    have hr : strStartsWith field "rst-" = false := by
      rw [field_eq_del_append hdel]
      exact strStartsWith_rst_del_append _
    exact applyField_del_scalar name st field v hr hdel hnot
  · intro name st field v hr hd hnot
    exact applyField_scalar name st field v hr hd hnot
  · intro name st field v hr hnot
    exact applyField_rst_scalar name st field v hr hnot

/-- Counterexample to C7 as stated: the unknown bare key `foo` is not
silently ignored — it is created on the record by the upsert's scalar
overwrite branch. -/
theorem malformed_field_keys_cex :
    lookupA DEFAULT_PROVIDER "foo" = none ∧
    lookupA (applyField "x" (DEFAULT_PROVIDER, []) "foo" (Val.vstr "bar")).1 "foo" =
      some (Val.vstr "bar") := by
  constructor
  · decide
  · decide

/-- Witness for C7 at concrete inputs. -/
theorem malformed_field_keys_witness :
    (strStartsWith "del-urlPattern" "del-" = true ∧
      strDrop "del-urlPattern" 4 ∉ ARRAY_FIELDS ∧
      strStartsWith "foo" "rst-" = false ∧ strStartsWith "foo" "del-" = false ∧
      "foo" ∉ ARRAY_FIELDS) ∧
    applyField "x" (DEFAULT_PROVIDER, []) "del-urlPattern" (Val.vstr "a") =
      (DEFAULT_PROVIDER, []) ∧
    applyField "x" (DEFAULT_PROVIDER, []) "foo" (Val.vstr "bar") =
      (setA DEFAULT_PROVIDER "foo" (Val.vstr "bar"), []) :=
  ⟨⟨by decide, by decide, by decide, by decide, by decide⟩,
   malformed_field_keys.1 "x" (DEFAULT_PROVIDER, []) "del-urlPattern"
     (Val.vstr "a") (by decide) (by decide),
   malformed_field_keys.2.1 "x" (DEFAULT_PROVIDER, []) "foo" (Val.vstr "bar")
     (by decide) (by decide) (by decide)⟩

/-- Claim C8, a code bug: at both degraded classifications the script still
emits the regular classification log line right after the warning: the
guard `"WARN" not in action_type` never fires because no action-type
string contains `WARN`, contradicting the script's own comment (only
non-WARN statuses should log the regular line) and the spec.  Evaluating
the embedded code at the two failing inputs shows warning *and*
classification line emitted. -/
theorem classification_line_always_emitted :
    (upsert_provider [("x", DEFAULT_PROVIDER)] "x" [("rules", Val.vstr "a")]
        "add-providers").2 =
      [LogEvent.warning (msgDupAdd "x"),
       LogEvent.info (msgClassify "Merge (Add->Mod)" "x")] ∧
    (upsert_provider [] "x" [("rules", Val.vstr "a")] "modify-providers").2 =
      [LogEvent.warning (msgMissingMod "x"),
       LogEvent.info (msgClassify "Create (Mod->Add)" "x")] := by
  constructor
  · decide
  · decide

/-! ### Lemmas about the minification projection -/

theorem minifyArrStep_lookup_ne (p : Provider) (m : Provider) (key : String)
    {k : String} (h : k ≠ key) :
    lookupA (minifyArrStep p m key) k = lookupA m k := by
  unfold minifyArrStep
  cases hl : lookupA p key with
  | none => rfl
  | some v =>
    cases v with
    | vstr s =>
      by_cases hs : s = ""
      · simp [hs]
      · simp [hs, lookupA_setA_ne _ _ h]
    | vnil => rfl
    | vcons a b => exact lookupA_setA_ne _ _ h
    | vbool b => rfl
    | vnull => rfl

theorem minifyArrStep_lookup_self (p : Provider) (m : Provider) (key : String) :
    lookupA (minifyArrStep p m key) key =
      match lookupA p key with
      | some (.vcons a b) => some (.vcons a b)
      | some (.vstr s) => if s = "" then lookupA m key else some (.vstr s)
      | _ => lookupA m key := by
  unfold minifyArrStep
  cases hl : lookupA p key with
  | none => rfl
  | some v =>
    cases v with
    | vstr s =>
      by_cases hs : s = ""
      · simp [hs]
      · simp [hs, lookupA_setA_self]
    | vnil => rfl
    | vcons a b => exact lookupA_setA_self _ _ _
    | vbool b => rfl
    | vnull => rfl

theorem minifyArrFold_lookup_notmem (p : Provider) (ks : List String)
    (m : Provider) {k : String} (h : k ∉ ks) :
    lookupA (ks.foldl (minifyArrStep p) m) k = lookupA m k := by
  induction ks generalizing m with
  | nil => rfl
  | cons k1 rest ih =>
    have h1 : k ≠ k1 := fun hh => h (by simp [hh])
    rw [List.foldl_cons, ih (minifyArrStep p m k1) (fun hh => h (by simp [hh]))]
    exact minifyArrStep_lookup_ne p m k1 h1

theorem minifyArrFold_lookup_mem (p : Provider) (ks : List String)
    (m : Provider) {k : String} (hmem : k ∈ ks) (hnd : ks.Nodup) :
    lookupA (ks.foldl (minifyArrStep p) m) k =
      match lookupA p k with
      | some (.vcons a b) => some (.vcons a b)
      | some (.vstr s) => if s = "" then lookupA m k else some (.vstr s)
      | _ => lookupA m k := by
  induction ks generalizing m with
  | nil => simp at hmem
  | cons k1 rest ih =>
    rcases List.nodup_cons.mp hnd with ⟨hk1, hrest⟩
    by_cases hk : k = k1
    · subst hk
      rw [List.foldl_cons, minifyArrFold_lookup_notmem p rest _ hk1]
      exact minifyArrStep_lookup_self p m k
    · have hmem2 : k ∈ rest := by
        rcases List.mem_cons.mp hmem with hh | hh
        · exact absurd hh hk
        · exact hh
      rw [List.foldl_cons, ih (minifyArrStep p m k1) hmem2 hrest,
        minifyArrStep_lookup_ne p m k1 hk]

theorem lookupA_nil {α : Type} (k : String) :
    lookupA ([] : List (String × α)) k = none := rfl

theorem minifyScalars_up (p : Provider) :
    lookupA (minifyScalars p) "urlPattern" = lookupA p "urlPattern" := by
  unfold minifyScalars
  cases hu : lookupA p "urlPattern" with
  | none =>
    split_ifs <;>
      simp +decide [lookupA_nil, lookupA_setA_ne, lookupA_setA_self]
  | some v =>
    split_ifs <;>
      simp +decide [lookupA_nil, lookupA_setA_ne, lookupA_setA_self]

theorem minifyScalars_cp (p : Provider) :
    lookupA (minifyScalars p) "completeProvider" =
      if lookupA p "completeProvider" = some (.vbool true) then
        some (.vbool true) else none := by
  unfold minifyScalars
  cases hu : lookupA p "urlPattern" with
  | none =>
    split_ifs <;>
      simp +decide [lookupA_nil, lookupA_setA_ne, lookupA_setA_self]
  | some v =>
    split_ifs <;>
      simp +decide [lookupA_nil, lookupA_setA_ne, lookupA_setA_self]

theorem minifyScalars_fr (p : Provider) :
    lookupA (minifyScalars p) "forceRedirection" =
      if lookupA p "forceRedirection" = some (.vbool true) then
        some (.vbool true) else none := by
  unfold minifyScalars
  cases hu : lookupA p "urlPattern" with
  | none =>
    split_ifs <;>
      simp +decide [lookupA_nil, lookupA_setA_ne, lookupA_setA_self]
  | some v =>
    split_ifs <;>
      simp +decide [lookupA_nil, lookupA_setA_ne, lookupA_setA_self]

theorem minifyScalars_other (p : Provider) {k : String}
    (h1 : k ≠ "urlPattern") (h2 : k ≠ "completeProvider")
    (h3 : k ≠ "forceRedirection") :
    lookupA (minifyScalars p) k = none := by
  unfold minifyScalars
  cases hu : lookupA p "urlPattern" with
  | none =>
    split_ifs <;>
      simp [lookupA_nil, lookupA_setA_ne _ _ h1, lookupA_setA_ne _ _ h2,
        lookupA_setA_ne _ _ h3]
  | some v =>
    split_ifs <;>
      simp [lookupA_nil, lookupA_setA_ne _ _ h1, lookupA_setA_ne _ _ h2,
        lookupA_setA_ne _ _ h3]

/-- Claim C6: minification is a pure projection (a total function of its
input): per record it keeps `urlPattern` exactly when the merged record
defines it (same value), keeps `completeProvider` and `forceRedirection`
only when they are exactly `true`, keeps an array field only when the
stored array is non-empty — and consequently a record with
`completeProvider = false`, `forceRedirection = false` and all arrays
empty minifies to an object holding only the `urlPattern` key. -/
theorem minify_projection (p : Provider) :
    lookupA (minifyProvider p) "urlPattern" = lookupA p "urlPattern" ∧
    (lookupA (minifyProvider p) "completeProvider" =
      if lookupA p "completeProvider" = some (.vbool true) then
        some (.vbool true) else none) ∧
    (lookupA (minifyProvider p) "forceRedirection" =
      if lookupA p "forceRedirection" = some (.vbool true) then
        some (.vbool true) else none) ∧
    (∀ f ∈ ARRAY_FIELDS, ∀ l : List String, lookupA p f = some (listToVal l) →
      lookupA (minifyProvider p) f =
        if l = [] then none else some (listToVal l)) ∧
    (∀ u : Val, minifyProvider
        [("urlPattern", u), ("completeProvider", .vbool false),
         ("rules", .vnil), ("referralMarketing", .vnil), ("rawRules", .vnil),
         ("exceptions", .vnil), ("redirections", .vnil),
         ("forceRedirection", .vbool false)] =
      [("urlPattern", u)]) := by
  refine ⟨?_, ?_, ?_, ?_, ?_⟩
  · unfold minifyProvider
    rw [minifyArrFold_lookup_notmem p _ _ (by decide : "urlPattern" ∉ ARRAY_FIELDS)]
    exact minifyScalars_up p
  · unfold minifyProvider
    rw [minifyArrFold_lookup_notmem p _ _
      (by decide : "completeProvider" ∉ ARRAY_FIELDS)]
    exact minifyScalars_cp p
  · unfold minifyProvider
    rw [minifyArrFold_lookup_notmem p _ _
      (by decide : "forceRedirection" ∉ ARRAY_FIELDS)]
    exact minifyScalars_fr p
  · intro f hf l hl
    have hne : f ≠ "urlPattern" ∧ f ≠ "completeProvider" ∧
        f ≠ "forceRedirection" := by
      rcases (by simpa [ARRAY_FIELDS, RULE_FIELDS] using hf :
        f = "rules" ∨ f = "referralMarketing" ∨ f = "rawRules" ∨
          f = "redirections" ∨ f = "exceptions") with
        rfl | rfl | rfl | rfl | rfl <;> exact ⟨by decide, by decide, by decide⟩
    unfold minifyProvider
    rw [minifyArrFold_lookup_mem p _ _ hf (by decide), hl]
    cases l with
    | nil =>
      simp only [listToVal, if_pos rfl]
      exact minifyScalars_other p hne.1 hne.2.1 hne.2.2
    | cons s rest =>
      simp [listToVal]
  · intro u
    rfl

/-- Witness for C6 at a concrete input. -/
theorem minify_projection_witness :
    ("rules" ∈ ARRAY_FIELDS ∧
      lookupA ([("urlPattern", Val.vstr "p"), ("rules", listToVal ["a"])] :
        Provider) "rules" = some (listToVal ["a"])) ∧
    (lookupA (minifyProvider [("urlPattern", Val.vstr "p"),
        ("rules", listToVal ["a"])]) "urlPattern" =
      lookupA ([("urlPattern", Val.vstr "p"), ("rules", listToVal ["a"])] :
        Provider) "urlPattern" ∧
    lookupA (minifyProvider [("urlPattern", Val.vstr "p"),
        ("rules", listToVal ["a"])]) "rules" =
      (if (["a"] : List String) = [] then none else some (listToVal ["a"]))) :=
  ⟨⟨by decide, by decide⟩,
   (minify_projection [("urlPattern", Val.vstr "p"),
      ("rules", listToVal ["a"])]).1,
   (minify_projection [("urlPattern", Val.vstr "p"),
      ("rules", listToVal ["a"])]).2.2.2.1 "rules" (by decide) ["a"] (by decide)⟩
